import Mathlib

/-!
Verification of the basis-rs typed Parquet access layer
(`include/basis_rs/parquet/...`): the chunked zero-copy column accessor,
the field-binding codec, the query builder's scan-column computation, and
the buffered table writer.  Each C++ component is shallowly embedded as an
executable Lean definition; theorems relate the embedded operations to the
behaviour stated in the design document.
-/

set_option autoImplicit false

namespace BasisRs

universe u

variable {α : Type u}

/-- Model of `ColumnAccessor<T>` (detail/column_accessor.hpp): a list of
chunk views (each chunk is the list of values it points at), the prefix-sum
list `chunk_offsets_`, and `total_size_`. -/
structure ColumnAccessor (α : Type u) where
  chunks : List (List α)
  chunk_offsets : List Nat
  total_size : Nat
deriving Repr

/-- A freshly default-constructed `ColumnAccessor`. -/
def ColumnAccessor.empty : ColumnAccessor α := ⟨[], [], 0⟩

/-- `ColumnAccessor::AddChunk(data, size)`: a chunk is stored only when its
size is positive; `total_size_` grows by the chunk length and the new
cumulative total is pushed onto `chunk_offsets_`. -/
def AddChunk (acc : ColumnAccessor α) (data : List α) : ColumnAccessor α :=
  if 0 < data.length then
    { chunks := acc.chunks ++ [data]
      chunk_offsets := acc.chunk_offsets ++ [acc.total_size + data.length]
      total_size := acc.total_size + data.length }
  else acc

/-- Building an accessor by a sequence of `AddChunk` calls, as the
`DataFrame::GetColumn<T>` specialisations do over the FFI chunk list. -/
def buildAccessor (cs : List (List α)) : ColumnAccessor α :=
  cs.foldl AddChunk ColumnAccessor.empty

/-- `std::upper_bound` on a sorted list of offsets: index of the first
element strictly greater than `key`, or the length when none is. -/
def upperBound : List Nat → Nat → Nat
  | [], _ => 0
  | o :: os, key => if key < o then 0 else upperBound os key + 1

/-- `ColumnAccessor::operator[]`: binary-search `chunk_offsets_` for the
chunk containing `idx`, subtract the preceding cumulative size, and index
into the chunk.  Out-of-range access is undefined behaviour in C++ and is
modelled by `none`.  `accOffset` is the cumulative size of the chunks
preceding chunk `ci` (the `offset` local in the C++ code). -/
def accOffset (acc : ColumnAccessor α) (ci : Nat) : Nat :=
  if ci = 0 then 0 else acc.chunk_offsets.getD (ci - 1) 0

/-- The element fetch of `ColumnAccessor::operator[]`. -/
def accGet (acc : ColumnAccessor α) (idx : Nat) : Option α :=
  (acc.chunks[upperBound acc.chunk_offsets idx]?).bind fun ch =>
    ch[idx - accOffset acc (upperBound acc.chunk_offsets idx)]?

/-- `ColumnAccessor::at`: bounds-checked access that throws
`std::out_of_range` for `idx >= total_size_` and otherwise delegates to
`operator[]`. -/
def accAt (acc : ColumnAccessor α) (idx : Nat) : Except String α :=
  if acc.total_size ≤ idx then .error "ColumnAccessor index out of range"
  else
    match accGet acc idx with
    | some v => .ok v
    | none => .error "undefined behavior"

/-- `ColumnAccessor::size()`. -/
def accSize (acc : ColumnAccessor α) : Nat := acc.total_size

/-- The cumulative prefix sums that `chunk_offsets_` is meant to hold:
`prefixSums [l1, l2, l3] = [l1, l1+l2, l1+l2+l3]`. -/
def prefixSums : List Nat → List Nat
  | [] => []
  | l :: ls => l :: (prefixSums ls).map (l + ·)

/-- The accessor's documented invariant: the offsets are the prefix sums of
the stored chunk lengths, the total size is their sum, and no stored chunk
is empty. -/
def AccInv (acc : ColumnAccessor α) : Prop :=
  acc.chunk_offsets = prefixSums (acc.chunks.map List.length) ∧
  acc.total_size = (acc.chunks.map List.length).sum ∧
  ∀ c ∈ acc.chunks, c ≠ []

theorem prefixSums_append (ls : List Nat) (l : Nat) :
    prefixSums (ls ++ [l]) = prefixSums ls ++ [ls.sum + l] := by
  induction ls with
  | nil => simp [prefixSums]
  | cons a as ih =>
    show prefixSums (a :: (as ++ [l])) = _
    simp [prefixSums, ih, Nat.add_assoc]

theorem addChunk_inv (acc : ColumnAccessor α) (data : List α)
    (h : AccInv acc) : AccInv (AddChunk acc data) := by
  obtain ⟨h1, h2, h3⟩ := h
  unfold AddChunk
  split
  case isTrue hpos =>
    refine ⟨?_, ?_, ?_⟩
    · simp only [List.map_append, List.map_cons, List.map_nil]
      rw [h1, h2, ← prefixSums_append]
    · simp [h2]
    · intro c hc
      rcases List.mem_append.mp hc with hc | hc
      · exact h3 c hc
      · simp only [List.mem_singleton] at hc
        subst hc
        exact List.length_pos.mp hpos
  case isFalse => exact ⟨h1, h2, h3⟩

theorem foldl_addChunk_inv (cs : List (List α)) (acc : ColumnAccessor α)
    (h : AccInv acc) : AccInv (cs.foldl AddChunk acc) := by
  induction cs generalizing acc with
  | nil => exact h
  | cons c cs ih => exact ih _ (addChunk_inv acc c h)

theorem buildAccessor_inv (cs : List (List α)) : AccInv (buildAccessor cs) :=
  foldl_addChunk_inv cs _ ⟨rfl, rfl, by simp [ColumnAccessor.empty]⟩

theorem addChunk_nil (acc : ColumnAccessor α) : AddChunk acc [] = acc := by
  simp [AddChunk]

/-- When every added chunk is non-empty, the stored chunk list is exactly
the list of added chunks. -/
theorem foldl_addChunk_chunks (cs : List (List α)) (acc : ColumnAccessor α)
    (h : ∀ c ∈ cs, c ≠ []) :
    (cs.foldl AddChunk acc).chunks = acc.chunks ++ cs := by
  induction cs generalizing acc with
  | nil => simp
  | cons c cs ih =>
    have hc : c ≠ [] := h c (by simp)
    have hlen : 0 < c.length := List.length_pos.mpr hc
    simp only [List.foldl_cons]
    rw [ih _ (fun d hd => h d (by simp [hd]))]
    simp [AddChunk, hlen]

theorem buildAccessor_chunks (cs : List (List α)) (h : ∀ c ∈ cs, c ≠ []) :
    (buildAccessor cs).chunks = cs := by
  rw [buildAccessor, foldl_addChunk_chunks cs _ h]
  simp [ColumnAccessor.empty]

theorem upperBound_map_add (os : List Nat) (a key : Nat) (h : a ≤ key) :
    upperBound (os.map (a + ·)) key = upperBound os (key - a) := by
  induction os with
  | nil => rfl
  | cons o os ih =>
    simp only [List.map_cons, upperBound, ih]
    have heq : key < a + o ↔ key - a < o := by omega
    simp [heq]

theorem upperBound_le_length (os : List Nat) (key : Nat) :
    upperBound os key ≤ os.length := by
  induction os with
  | nil => simp [upperBound]
  | cons o os ih =>
    simp only [upperBound, List.length_cons]
    split
    · omega
    · omega

/-- Core indexing lemma: with offsets equal to the prefix sums of the chunk
lengths, `operator[]` agrees with indexing into the concatenation of the
chunks (undefined/`none` exactly when out of range). -/
theorem accGet_eq_flatten (cs : List (List α)) (n idx : Nat) :
    accGet ⟨cs, prefixSums (cs.map List.length), n⟩ idx = cs.flatten[idx]? := by
  induction cs generalizing idx with
  | nil => simp [accGet, prefixSums, upperBound]
  | cons c cs ih =>
    have hps : prefixSums ((c :: cs).map List.length)
        = c.length :: (prefixSums (cs.map List.length)).map (c.length + ·) := rfl
    by_cases hlt : idx < c.length
    · have h0 : upperBound (prefixSums ((c :: cs).map List.length)) idx = 0 := by
        rw [hps]
        simp [upperBound, hlt]
      simp only [accGet, accOffset, h0]
      rw [List.flatten_cons, List.getElem?_append_left hlt]
      simp
    · push_neg at hlt
      have hub : upperBound (prefixSums ((c :: cs).map List.length)) idx
          = upperBound (prefixSums (cs.map List.length)) (idx - c.length) + 1 := by
        rw [hps]
        simp only [upperBound, if_neg (Nat.not_lt.mpr hlt)]
        rw [upperBound_map_add _ _ _ hlt]
      set ub := upperBound (prefixSums (cs.map List.length)) (idx - c.length) with hubdef
      have hoff : accOffset ⟨c :: cs, prefixSums ((c :: cs).map List.length), n⟩ (ub + 1)
          = c.length + accOffset ⟨cs, prefixSums (cs.map List.length), n⟩ ub := by
        simp only [accOffset, hps]
        cases hub0 : ub with
        | zero => simp
        | succ m =>
          have hm : m < (prefixSums (cs.map List.length)).length := by
            have hle := upperBound_le_length (prefixSums (cs.map List.length)) (idx - c.length)
            rw [← hubdef] at hle
            omega
          simp only [if_neg (Nat.succ_ne_zero _), Nat.add_sub_cancel, Nat.succ_sub_one,
            List.getD_cons_succ]
          rw [List.getD_eq_getElem?_getD, List.getElem?_map,
            List.getD_eq_getElem?_getD (l := prefixSums (cs.map List.length)),
            List.getElem?_eq_getElem hm]
          simp
      simp only [accGet, hub, hoff]
      simp only [List.getElem?_cons_succ]
      rw [List.flatten_cons, List.getElem?_append_right hlt, ← ih (idx - c.length)]
      simp only [accGet, ← hubdef, Nat.sub_sub]

theorem buildAccessor_eq (cs : List (List α)) (hne : ∀ ch ∈ cs, ch ≠ []) :
    buildAccessor cs
      = ⟨cs, prefixSums (cs.map List.length), (cs.map List.length).sum⟩ := by
  obtain ⟨h1, h2, -⟩ := buildAccessor_inv (α := α) cs
  have hc := buildAccessor_chunks cs hne
  cases hb : buildAccessor cs with
  | mk a b t =>
    rw [hb] at h1 h2 hc
    simp only at h1 h2 hc
    subst hc
    rw [h1, h2]

theorem buildAccessor_get (cs : List (List α)) (hne : ∀ ch ∈ cs, ch ≠ [])
    (idx : Nat) : accGet (buildAccessor cs) idx = cs.flatten[idx]? := by
  rw [buildAccessor_eq cs hne, accGet_eq_flatten]

theorem buildAccessor_size (cs : List (List α)) (hne : ∀ ch ∈ cs, ch ≠ []) :
    accSize (buildAccessor cs) = cs.flatten.length := by
  rw [buildAccessor_eq cs hne]
  simp [accSize]

theorem accGet_isSome (acc : ColumnAccessor α) (hinv : AccInv acc) (idx : Nat)
    (h : idx < acc.total_size) : ∃ v, accGet acc idx = some v := by
  obtain ⟨h1, h2, -⟩ := hinv
  cases acc with
  | mk ch off t =>
    simp only at h1 h2
    subst h1
    rw [accGet_eq_flatten]
    simp only at h
    have hlen : idx < ch.flatten.length := by
      rw [List.length_flatten]
      omega
    exact ⟨ch.flatten[idx], List.getElem?_eq_getElem hlen⟩

/-- Model of `ColumnIterator<T>`: the pair of `chunk_idx_` and `elem_idx_`.
Iterator equality compares both fields, as `operator==` does. -/
structure ColumnIterator where
  chunk_idx : Nat
  elem_idx : Nat
deriving DecidableEq, Repr

/-- `ColumnIterator::SkipEmptyChunks`: advance `chunk_idx` past chunks of
size zero. -/
def skipEmptyFrom (chunks : List (List α)) (ci : Nat) : Nat :=
  if h : ci < chunks.length then
    if (chunks.get ⟨ci, h⟩).length = 0 then skipEmptyFrom chunks (ci + 1) else ci
  else ci
termination_by chunks.length - ci

/-- The iterator constructor `ColumnIterator(chunks, chunk_idx, elem_idx)`,
which runs `SkipEmptyChunks` once. -/
def mkIter (chunks : List (List α)) (ci ei : Nat) : ColumnIterator :=
  ⟨skipEmptyFrom chunks ci, ei⟩

/-- `ColumnAccessor::begin()`. -/
def beginIter (chunks : List (List α)) : ColumnIterator := mkIter chunks 0 0

/-- `ColumnAccessor::end()`. -/
def endIter (chunks : List (List α)) : ColumnIterator :=
  mkIter chunks chunks.length 0

/-- `ColumnIterator::operator*`. -/
def itDeref (chunks : List (List α)) (it : ColumnIterator) : Option α :=
  (chunks.getD it.chunk_idx [])[it.elem_idx]?

/-- `ColumnIterator::operator++`: bump `elem_idx_`; on exhausting the
current chunk move to the next chunk and skip empty ones. -/
def itNext (chunks : List (List α)) (it : ColumnIterator) : ColumnIterator :=
  if (chunks.getD it.chunk_idx []).length ≤ it.elem_idx + 1 then
    ⟨skipEmptyFrom chunks (it.chunk_idx + 1), 0⟩
  else ⟨it.chunk_idx, it.elem_idx + 1⟩

/-- Running the forward-iteration loop `for (it = begin; it != end; ++it)`
for at most `fuel` steps, collecting the dereferenced values and returning
the final iterator. -/
def iterOut (chunks : List (List α)) : Nat → ColumnIterator → List α × ColumnIterator
  | 0, it => ([], it)
  | fuel + 1, it =>
    if it = endIter chunks then ([], it)
    else
      match itDeref chunks it with
      | none => ([], it)
      | some v =>
        let p := iterOut chunks fuel (itNext chunks it)
        (v :: p.1, p.2)

theorem skipEmptyFrom_ge (chunks : List (List α)) (ci : Nat)
    (h : chunks.length ≤ ci) : skipEmptyFrom chunks ci = ci := by
  unfold skipEmptyFrom
  rw [dif_neg (by omega)]

theorem skipEmptyFrom_stay (chunks : List (List α)) (ci : Nat)
    (h : ci < chunks.length) (hne : chunks.getD ci [] ≠ []) :
    skipEmptyFrom chunks ci = ci := by
  unfold skipEmptyFrom
  rw [dif_pos h, if_neg]
  intro hzero
  apply hne
  rw [List.getD_eq_getElem _ _ h]
  exact List.eq_nil_of_length_eq_zero (by simpa using hzero)

theorem skipEmptyFrom_noEmpty (chunks : List (List α))
    (hne : ∀ ch ∈ chunks, ch ≠ []) (ci : Nat) :
    skipEmptyFrom chunks ci = ci := by
  by_cases h : ci < chunks.length
  · refine skipEmptyFrom_stay chunks ci h ?_
    rw [List.getD_eq_getElem _ _ h]
    exact hne _ (List.getElem_mem h)
  · exact skipEmptyFrom_ge chunks ci (by omega)

theorem endIter_eq (chunks : List (List α)) :
    endIter chunks = ⟨chunks.length, 0⟩ := by
  unfold endIter mkIter
  rw [skipEmptyFrom_ge chunks _ (by omega)]

theorem iterOut_end (chunks : List (List α)) (fuel : Nat) :
    iterOut chunks fuel (endIter chunks) = ([], endIter chunks) := by
  cases fuel with
  | zero => rfl
  | succ n => simp [iterOut]

/-- One full run of the iteration loop over a chunk list with no empty
chunks: starting inside chunk `ci` at element `ei`, the loop emits the rest
of the current chunk followed by all later chunks and stops exactly at
`end()`. -/
theorem iterOut_run (chunks : List (List α)) (hne : ∀ ch ∈ chunks, ch ≠ []) :
    ∀ fuel ci ei, ci < chunks.length → ei < (chunks.getD ci []).length →
      (chunks.drop ci).flatten.length - ei ≤ fuel →
      iterOut chunks fuel ⟨ci, ei⟩
        = ((chunks.getD ci []).drop ei ++ (chunks.drop (ci + 1)).flatten,
           endIter chunks) := by
  intro fuel
  induction fuel with
  | zero =>
    intro ci ei h1 h2 h3
    exfalso
    have hdrop : chunks.drop ci = chunks[ci] :: chunks.drop (ci + 1) :=
      List.drop_eq_getElem_cons h1
    rw [List.getD_eq_getElem _ _ h1] at h2
    rw [hdrop] at h3
    simp only [List.flatten_cons, List.length_append] at h3
    omega
  | succ fuel ih =>
    intro ci ei h1 h2 h3
    have hneq : (⟨ci, ei⟩ : ColumnIterator) ≠ endIter chunks := by
      rw [endIter_eq]
      intro hcontra
      cases hcontra
      omega
    have hgetD : chunks.getD ci [] = chunks[ci] := List.getD_eq_getElem _ _ h1
    have hderef : itDeref chunks ⟨ci, ei⟩ = some ((chunks.getD ci [])[ei]) := by
      unfold itDeref
      exact List.getElem?_eq_getElem (by simpa using h2)
    have hdrop : chunks.drop ci = chunks[ci] :: chunks.drop (ci + 1) :=
      List.drop_eq_getElem_cons h1
    have hdropflat : (chunks.drop ci).flatten
        = chunks[ci] ++ (chunks.drop (ci + 1)).flatten := by
      rw [hdrop, List.flatten_cons]
    have hchunkdrop : (chunks.getD ci []).drop ei
        = (chunks.getD ci [])[ei] :: (chunks.getD ci []).drop (ei + 1) := by
      exact List.drop_eq_getElem_cons (by simpa using h2)
    rw [iterOut, if_neg hneq, hderef]
    by_cases hend : (chunks.getD ci []).length ≤ ei + 1
    · have heq : ei + 1 = (chunks.getD ci []).length := by omega
      have hnext : itNext chunks ⟨ci, ei⟩ = ⟨skipEmptyFrom chunks (ci + 1), 0⟩ := by
        simp only [itNext]
        rw [if_pos hend]
      by_cases hci : ci + 1 < chunks.length
      · have hskip : skipEmptyFrom chunks (ci + 1) = ci + 1 :=
          skipEmptyFrom_noEmpty chunks hne (ci + 1)
        have hne2 : chunks.getD (ci + 1) [] ≠ [] := by
          rw [List.getD_eq_getElem _ _ hci]
          exact hne _ (List.getElem_mem hci)
        have hdrop2 : chunks.drop (ci + 1)
            = chunks[ci + 1] :: chunks.drop (ci + 2) :=
          List.drop_eq_getElem_cons hci
        have hrec := ih (ci + 1) 0 hci (by
          rw [List.getD_eq_getElem _ _ hci]
          exact List.length_pos.mpr (hne _ (List.getElem_mem hci)))
          (by
            have hlen : (chunks.drop ci).flatten.length
                = chunks[ci].length + (chunks.drop (ci + 1)).flatten.length := by
              rw [hdropflat]
              simp
            rw [hgetD] at heq
            omega)
        have hdropnil : (chunks.getD ci []).drop (ei + 1) = [] := by
          rw [heq]
          exact List.drop_length _
        have hgd2 : chunks.getD (ci + 1) [] = chunks[ci + 1] :=
          List.getD_eq_getElem _ _ hci
        rw [hnext, hskip, hrec, hchunkdrop, hdropnil, hgd2, hdrop2]
        simp only [List.drop_zero, List.flatten_cons, List.nil_append,
          Prod.mk.injEq, List.cons_append]
      · have hci2 : ci + 1 = chunks.length := by omega
        have hskip : skipEmptyFrom chunks (ci + 1) = ci + 1 :=
          skipEmptyFrom_ge chunks _ (by omega)
        have hnext2 : itNext chunks ⟨ci, ei⟩ = endIter chunks := by
          rw [hnext, hskip, endIter_eq, hci2]
        rw [hnext2, iterOut_end]
        rw [hchunkdrop]
        have hdropnil : (chunks.getD ci []).drop (ei + 1) = [] := by
          rw [heq]
          exact List.drop_length _
        have hdropnil2 : chunks.drop (ci + 1) = [] := by
          rw [hci2]
          exact List.drop_length _
        rw [hdropnil, hdropnil2]
        rfl
    · push_neg at hend
      have hnext : itNext chunks ⟨ci, ei⟩ = ⟨ci, ei + 1⟩ := by
        simp only [itNext]
        rw [if_neg (by omega)]
      have hrec := ih ci (ei + 1) h1 hend (by
        have hlen : (chunks.drop ci).flatten.length
            = chunks[ci].length + (chunks.drop (ci + 1)).flatten.length := by
          rw [hdropflat]
          simp
        rw [hgetD] at h2
        omega)
      rw [hnext, hrec, hchunkdrop]
      rfl

/-- The value sequence produced by one full iterator pass
(`begin()` .. `end()`), with fuel equal to the accessor size. -/
def accIterList (acc : ColumnAccessor α) : List α :=
  (iterOut acc.chunks (accSize acc) (beginIter acc.chunks)).1

theorem iterOut_build (cs : List (List α)) (hne : ∀ ch ∈ cs, ch ≠ []) :
    iterOut cs cs.flatten.length (beginIter cs) = (cs.flatten, endIter cs) := by
  cases cs with
  | nil => rfl
  | cons c cs =>
    have hhead : (c :: cs).getD 0 [] ≠ [] := hne c (by simp)
    have hbegin : beginIter (c :: cs) = ⟨0, 0⟩ := by
      unfold beginIter mkIter
      rw [skipEmptyFrom_noEmpty _ hne]
    rw [hbegin]
    have hrun := iterOut_run (c :: cs) hne (c :: cs).flatten.length 0 0
      (by simp) (by simpa using List.length_pos.mpr hhead) (by simp)
    rw [hrun]
    simp

theorem range_map_accGet (cs : List (List α)) (hne : ∀ ch ∈ cs, ch ≠ []) :
    (List.range (accSize (buildAccessor cs))).map (accGet (buildAccessor cs))
      = cs.flatten.map some := by
  have hsize := buildAccessor_size cs hne
  apply List.ext_getElem?
  intro i
  rw [List.getElem?_map, List.getElem?_map]
  by_cases h : i < cs.flatten.length
  · have hi : i < accSize (buildAccessor cs) := by omega
    rw [List.getElem?_range hi, List.getElem?_eq_getElem h]
    simp only [Option.map_some']
    rw [buildAccessor_get cs hne i, List.getElem?_eq_getElem h]
  · push_neg at h
    rw [List.getElem?_eq_none (by simpa [List.length_range] using (by omega : accSize (buildAccessor cs) ≤ i)),
        List.getElem?_eq_none (by simpa using h)]
    rfl

/-- C1: for a column accessor built by `AddChunk` over non-empty chunks,
the flat index API (`operator[]` for `0 .. size()-1`) and the forward
iterator (`begin()` to `end()`) yield the identical value sequence in the
same order; the iteration emits exactly `size()` elements and terminates at
`end()`. -/
theorem accessor_index_iterator_agree (cs : List (List α))
    (hne : ∀ ch ∈ cs, ch ≠ []) :
    (List.range (accSize (buildAccessor cs))).map (accGet (buildAccessor cs))
        = cs.flatten.map some
    ∧ accIterList (buildAccessor cs) = cs.flatten
    ∧ (iterOut (buildAccessor cs).chunks (accSize (buildAccessor cs))
        (beginIter (buildAccessor cs).chunks)).2
        = endIter (buildAccessor cs).chunks
    ∧ (accIterList (buildAccessor cs)).length = accSize (buildAccessor cs) := by
  have hch := buildAccessor_chunks cs hne
  have hsz := buildAccessor_size cs hne
  refine ⟨range_map_accGet cs hne, ?_, ?_, ?_⟩
  · unfold accIterList
    rw [hch, hsz, iterOut_build cs hne]
  · rw [hch, hsz, iterOut_build cs hne]
  · unfold accIterList
    rw [hch, hsz, iterOut_build cs hne]

/-- Witness for the C1 theorem at a concrete two-chunk column. -/
theorem accessor_index_iterator_agree_witness :
    (∀ ch ∈ ([[1, 2], [3]] : List (List Nat)), ch ≠ [])
    ∧ ((List.range (accSize (buildAccessor ([[1, 2], [3]] : List (List Nat))))).map
          (accGet (buildAccessor [[1, 2], [3]]))
        = ([[1, 2], [3]] : List (List Nat)).flatten.map some
      ∧ accIterList (buildAccessor ([[1, 2], [3]] : List (List Nat)))
          = [[1, 2], [3]].flatten
      ∧ (iterOut (buildAccessor ([[1, 2], [3]] : List (List Nat))).chunks
            (accSize (buildAccessor [[1, 2], [3]]))
            (beginIter (buildAccessor [[1, 2], [3]]).chunks)).2
          = endIter (buildAccessor ([[1, 2], [3]] : List (List Nat))).chunks
      ∧ (accIterList (buildAccessor ([[1, 2], [3]] : List (List Nat)))).length
          = accSize (buildAccessor [[1, 2], [3]])) :=
  ⟨by decide, accessor_index_iterator_agree [[1, 2], [3]] (by decide)⟩

/-- The legacy `ColumnAccessor<T>` of the top-level parquet.hpp header:
only a chunk list and a running total (no `chunk_offsets_` prefix sums),
and an `AddChunk` with no size guard. -/
structure LegacyColumnAccessor (α : Type u) where
  chunks : List (List α)
  total_size : Nat
deriving DecidableEq, Repr

/-- The legacy `ColumnAccessor::AddChunk(data, size)` (parquet.hpp):
`chunks_.emplace_back(data, size); total_size_ += size;` -- it appends
unconditionally, zero-length chunks included. -/
def legacyAddChunk (acc : LegacyColumnAccessor α) (data : List α) :
    LegacyColumnAccessor α :=
  ⟨acc.chunks ++ [data], acc.total_size + data.length⟩

/-- C7 counterexample: on the legacy accessor cited by the claim, an
`AddChunk` call with length zero changes the state and stores the
zero-length chunk. -/
theorem legacy_addChunk_zero_counterexample :
    legacyAddChunk (⟨[], 0⟩ : LegacyColumnAccessor Nat) [] = ⟨[[]], 0⟩
    ∧ legacyAddChunk (⟨[], 0⟩ : LegacyColumnAccessor Nat) [] ≠ ⟨[], 0⟩
    ∧ [] ∈ (legacyAddChunk (⟨[], 0⟩ : LegacyColumnAccessor Nat) []).chunks := by
  refine ⟨rfl, by decide, by decide⟩

/-- C7 (amended): on the accessor of detail/column_accessor.hpp an
`AddChunk` call with length zero leaves the state unchanged, and after
every sequence of `AddChunk` calls the stored state satisfies the
invariant (offsets are the cumulative prefix sums of the stored chunk
lengths, the total size is their sum, and no zero-length chunk is ever
stored); the legacy accessor of parquet.hpp instead appends every chunk
unconditionally -- zero-length chunks included -- keeping only a running
total. -/
theorem addChunk_state_invariants {β : Type} :
    (∀ (acc : ColumnAccessor β) (data : List β), data.length = 0 →
        AddChunk acc data = acc)
    ∧ (∀ cs : List (List β), AccInv (buildAccessor cs))
    ∧ (∀ (acc : LegacyColumnAccessor β) (data : List β),
        legacyAddChunk acc data
          = ⟨acc.chunks ++ [data], acc.total_size + data.length⟩) := by
  refine ⟨?_, buildAccessor_inv, fun acc data => rfl⟩
  intro acc data h
  have hnil : data = [] := List.eq_nil_of_length_eq_zero h
  rw [hnil]
  exact addChunk_nil acc

/-- Witness for the C7 amended theorem: a zero-length call on a concrete
detail accessor, the invariant after a call sequence that includes an
empty chunk, and the unconditional append of the legacy accessor. -/
theorem addChunk_state_invariants_witness :
    AddChunk (buildAccessor [[5]]) ([] : List Nat) = buildAccessor [[5]]
    ∧ AccInv (buildAccessor ([[5], [], [7]] : List (List Nat)))
    ∧ legacyAddChunk (⟨[[5]], 1⟩ : LegacyColumnAccessor Nat) []
        = ⟨[[5], []], 1⟩ :=
  ⟨addChunk_state_invariants.1 _ [] rfl, addChunk_state_invariants.2.1 _,
   addChunk_state_invariants.2.2 ⟨[[5]], 1⟩ []⟩

/-- C8: `at(i)` fails with the out-of-range error for every `i >= size()`
(including `i == size()`), and for `i < size()` it returns exactly the
element `operator[]` yields. -/
theorem at_bounds_check (cs : List (List α)) (idx : Nat) :
    (accSize (buildAccessor cs) ≤ idx →
      accAt (buildAccessor cs) idx
        = .error "ColumnAccessor index out of range")
    ∧ (idx < accSize (buildAccessor cs) →
      ∃ v, accGet (buildAccessor cs) idx = some v
        ∧ accAt (buildAccessor cs) idx = .ok v) := by
  constructor
  · intro h
    unfold accSize at h
    unfold accAt
    rw [if_pos h]
  · intro h
    unfold accSize at h
    obtain ⟨v, hv⟩ := accGet_isSome _ (buildAccessor_inv cs) idx h
    refine ⟨v, hv, ?_⟩
    unfold accAt
    rw [if_neg (by omega), hv]

/-- Witness for the C8 theorem: index 3 (= size) fails and index 1
succeeds on a concrete two-chunk accessor. -/
theorem at_bounds_check_witness :
    (accSize (buildAccessor ([[10], [20, 30]] : List (List Nat))) ≤ 3
      ∧ accAt (buildAccessor ([[10], [20, 30]] : List (List Nat))) 3
          = .error "ColumnAccessor index out of range")
    ∧ (1 < accSize (buildAccessor ([[10], [20, 30]] : List (List Nat)))
      ∧ ∃ v, accGet (buildAccessor ([[10], [20, 30]] : List (List Nat))) 1 = some v
        ∧ accAt (buildAccessor ([[10], [20, 30]] : List (List Nat))) 1 = .ok v) :=
  ⟨⟨by decide, (at_bounds_check [[10], [20, 30]] 3).1 (by decide)⟩,
   ⟨by decide, (at_bounds_check [[10], [20, 30]] 1).2 (by decide)⟩⟩

/-- The branch of `ParquetCodec::Add` that generated a binding's readers
(the `if constexpr` dispatch on the member type). -/
inductive FieldKind
  | prim
  | text
  | boolean
deriving DecidableEq, Repr

/-- One registered field binding of `ParquetCodec<Record>`: the column
name, the member's byte-offset identity (used directly as the record's
field slot), and the reader kind. -/
structure FieldBinding where
  name : String
  slot : Nat
  kind : FieldKind
deriving DecidableEq, Repr

/-- A record is the list of its field slots; `std::vector<Record>(n)`
value-initialises every slot to the field type's default value. -/
def defaultRecord (k : Nat) (dflt : α) : List α := List.replicate k dflt

/-- The assignment loop shared by all generated readers:
`for (i = 0; i < data.size() && i < records.size(); ++i)
records[i].*field = data[i]`. -/
def applyColReader (data : List α) (slot : Nat) : List (List α) → List (List α)
  | [] => []
  | r :: recs =>
    match data with
    | [] => r :: recs
    | v :: vs => r.set slot v :: applyColReader vs slot recs

/-- A legacy `ffi::ParquetReader` as the codec observes it: a row count
(`parquet_reader_num_rows`) and per-name column data
(`ParquetCellCodec<T>::Read`). -/
structure ReaderHandle (α : Type u) where
  numRows : Nat
  col : String → List α

/-- Run a list of generated readers in order over a records vector.
`dataOf b = none` models a reader body that never assigns to the records
(the stubbed bool branch of the DataFrame path); `some data` models a
reader that assigns `data` positionally. -/
def runReaders (dataOf : FieldBinding → Option (List α))
    (bs : List FieldBinding) (records : List (List α)) : List (List α) :=
  bs.foldl (fun recs b =>
    match dataOf b with
    | some data => applyColReader data b.slot recs
    | none => recs) records

/-- `ParquetCodec::ReadAll`: default-construct `numRows` records, then run
every registered column reader in registration order. -/
def ReadAllM (k : Nat) (dflt : α) (bs : List FieldBinding)
    (src : ReaderHandle α) : List (List α) :=
  runReaders (fun b => some (src.col b.name)) bs
    (List.replicate src.numRows (defaultRecord k dflt))

/-- The binding sub-list visited by `ParquetCodec::ReadSelected`'s loop
`for (size_t idx : column_indices) column_readers_[idx](...)`. -/
def selectBindings (bs : List FieldBinding) (indices : List Nat) :
    List FieldBinding :=
  indices.filterMap (fun idx => bs[idx]?)

/-- `ParquetCodec::ReadSelected`: run only the readers at the given column
indices over default-constructed records. -/
def ReadSelectedM (k : Nat) (dflt : α) (bs : List FieldBinding)
    (src : ReaderHandle α) (indices : List Nat) : List (List α) :=
  runReaders (fun b => some (src.col b.name)) (selectBindings bs indices)
    (List.replicate src.numRows (defaultRecord k dflt))

/-- The selected-index computation of `ParquetQuery::Collect`: for each
selected name in order, the first matching index among the codec's column
names; names with no match contribute nothing. -/
def selectedIndices (all_names : List String) (sel : List String) : List Nat :=
  sel.foldl (fun acc s =>
    match all_names.findIdx? (fun n => n = s) with
    | some i => acc ++ [i]
    | none => acc) []

theorem applyColReader_getElem? (data : List α) (slot : Nat)
    (recs : List (List α)) (i : Nat) :
    (applyColReader data slot recs)[i]?
      = (recs[i]?).map (fun r =>
          match data[i]? with
          | some v => r.set slot v
          | none => r) := by
  induction recs generalizing data i with
  | nil => simp [applyColReader]
  | cons r recs ih =>
    cases data with
    | nil =>
      simp only [applyColReader, List.getElem?_nil]
      cases (r :: recs)[i]? <;> rfl
    | cons v vs =>
      cases i with
      | zero => simp [applyColReader]
      | succ j =>
        simp only [applyColReader, List.getElem?_cons_succ, ih]

theorem applyColReader_length (data : List α) (slot : Nat)
    (recs : List (List α)) :
    (applyColReader data slot recs).length = recs.length := by
  induction recs generalizing data with
  | nil =>
    cases data <;> rfl
  | cons r recs ih =>
    cases data with
    | nil => rfl
    | cons v vs => simp [applyColReader, ih]

/-- First-match lookup in a list whose image under `f` has no duplicates:
`find?` returns the element itself. -/
theorem find?_eq_of_mem_nodup {β γ : Type u} [DecidableEq γ]
    (l : List β) (f : β → γ) (x : β)
    (hnd : (l.map f).Nodup) (hx : x ∈ l) :
    l.find? (fun y => f y = f x) = some x := by
  induction l with
  | nil => cases hx
  | cons h t ih =>
    simp only [List.map_cons, List.nodup_cons] at hnd
    rcases List.mem_cons.mp hx with hx | hx
    · subst hx
      simp [List.find?_cons_of_pos]
    · by_cases hfx : f h = f x
      · exfalso
        exact hnd.1 (hfx ▸ List.mem_map_of_mem f hx)
      · rw [List.find?_cons_of_neg _ (by simpa using hfx)]
        exact ih hnd.2 hx

/-- No binding in the list writes slot `t`: the records' slot-`t`
projection is untouched by the whole reader pass. -/
theorem runReaders_no_slot (dataOf : FieldBinding → Option (List α))
    (bs : List FieldBinding) (recs : List (List α)) (i t : Nat)
    (hnone : ∀ b ∈ bs, b.slot ≠ t) :
    ((runReaders dataOf bs recs)[i]?).bind (fun r => r[t]?)
      = (recs[i]?).bind (fun r => r[t]?) := by
  induction bs generalizing recs with
  | nil => rfl
  | cons b bs ih =>
    have hb : b.slot ≠ t := hnone b (by simp)
    have hrest : ∀ b' ∈ bs, b'.slot ≠ t := fun b' h => hnone b' (by simp [h])
    simp only [runReaders, List.foldl_cons]
    cases hdo : dataOf b with
    | none => exact ih _ hrest
    | some data =>
      rw [show (bs.foldl (fun recs b =>
            match dataOf b with
            | some data => applyColReader data b.slot recs
            | none => recs) (applyColReader data b.slot recs))
          = runReaders dataOf bs (applyColReader data b.slot recs) from rfl,
        ih _ hrest, applyColReader_getElem?]
      cases hri : recs[i]? with
      | none => rfl
      | some r =>
        simp only [Option.map_some', Option.some_bind]
        cases data[i]? with
        | none => rfl
        | some v =>
          simp only
          exact List.getElem?_set_ne (fun h => hb h)

/-- Slot-wise closed form of a full reader pass when every binding writes
a distinct slot: the value at slot `t` of row `i` is determined by the
unique binding for `t` (if any): the column's value at row `i` when
present, otherwise the initial record's value. -/
theorem runReaders_slot (dataOf : FieldBinding → Option (List α))
    (bs : List FieldBinding)
    (hnodup : (bs.map FieldBinding.slot).Nodup)
    (recs : List (List α)) (i t : Nat) (r : List α)
    (hr : recs[i]? = some r) (ht : t < r.length) :
    ∃ r', (runReaders dataOf bs recs)[i]? = some r' ∧ r'.length = r.length ∧
      r'[t]? = (match bs.find? (fun b => b.slot = t) with
        | some b =>
          match dataOf b with
          | some data =>
            match data[i]? with
            | some v => some v
            | none => r[t]?
          | none => r[t]?
        | none => r[t]?) := by
  induction bs generalizing recs r with
  | nil =>
    exact ⟨r, hr, rfl, by simp [runReaders]⟩
  | cons b bs ih =>
    simp only [List.map_cons, List.nodup_cons] at hnodup
    have hnotin : b.slot ∉ bs.map FieldBinding.slot := hnodup.1
    have htail : ∀ b' ∈ bs, b.slot = t → b'.slot ≠ t := by
      intro b' hb' hbt hcontra
      exact hnotin (hbt ▸ hcontra ▸ List.mem_map_of_mem FieldBinding.slot hb')
    cases hdo : dataOf b with
    | none =>
      have hstep : runReaders dataOf (b :: bs) recs = runReaders dataOf bs recs := by
        simp only [runReaders, List.foldl_cons, hdo]
      rw [hstep]
      obtain ⟨r', h1, h2, h3⟩ := ih hnodup.2 recs r hr ht
      refine ⟨r', h1, h2, ?_⟩
      by_cases hbt : b.slot = t
      · have hnone : bs.find? (fun y => y.slot = t) = none :=
          List.find?_eq_none.mpr (fun b' hb' => by simp [htail b' hb' hbt])
        rw [hnone] at h3
        rw [List.find?_cons_of_pos _ (by simp [hbt])]
        simp only [hdo]
        exact h3
      · rw [List.find?_cons_of_neg _ (by simp [hbt])]
        exact h3
    | some data =>
      have hstep : runReaders dataOf (b :: bs) recs
          = runReaders dataOf bs (applyColReader data b.slot recs) := by
        simp only [runReaders, List.foldl_cons, hdo]
      set r1 : List α := (match data[i]? with
        | some v => r.set b.slot v
        | none => r) with hr1def
      have hr1 : (applyColReader data b.slot recs)[i]? = some r1 := by
        rw [applyColReader_getElem?, hr]
        rfl
      have hlen1 : r1.length = r.length := by
        rw [hr1def]
        cases data[i]? with
        | none => rfl
        | some v => simp
      obtain ⟨r', h1, h2, h3⟩ := ih hnodup.2 _ r1 hr1 (by omega)
      rw [hstep]
      refine ⟨r', h1, by omega, ?_⟩
      by_cases hbt : b.slot = t
      · have hnone : bs.find? (fun y => y.slot = t) = none :=
          List.find?_eq_none.mpr (fun b' hb' => by simp [htail b' hb' hbt])
        rw [hnone] at h3
        rw [List.find?_cons_of_pos _ (by simp [hbt])]
        simp only [hdo]
        rw [h3, hr1def]
        cases hdi : data[i]? with
        | none => rfl
        | some v =>
          simp only
          rw [hbt]
          exact List.getElem?_set_eq_of_lt _ (by omega)
      · have hr1t : r1[t]? = r[t]? := by
          rw [hr1def]
          cases data[i]? with
          | none => rfl
          | some v =>
            simp only
            exact List.getElem?_set_ne hbt
        rw [List.find?_cons_of_neg _ (by simp [hbt])]
        rw [h3, hr1t]

theorem runReaders_length (dataOf : FieldBinding → Option (List α))
    (bs : List FieldBinding) (recs : List (List α)) :
    (runReaders dataOf bs recs).length = recs.length := by
  induction bs generalizing recs with
  | nil => rfl
  | cons b bs ih =>
    simp only [runReaders, List.foldl_cons]
    cases dataOf b with
    | none => exact ih recs
    | some data =>
      rw [show (bs.foldl (fun recs b =>
            match dataOf b with
            | some data => applyColReader data b.slot recs
            | none => recs) (applyColReader data b.slot recs))
          = runReaders dataOf bs (applyColReader data b.slot recs) from rfl]
      rw [ih, applyColReader_length]

theorem nodup_getElem?_inj {β : Type u} (l : List β) (hnd : l.Nodup)
    (i j : Nat) (v : β) (hi : l[i]? = some v) (hj : l[j]? = some v) : i = j := by
  obtain ⟨hi1, hi2⟩ := List.getElem?_eq_some_iff.mp hi
  obtain ⟨hj1, hj2⟩ := List.getElem?_eq_some_iff.mp hj
  exact (List.Nodup.getElem_inj_iff hnd).mp (by rw [hi2, hj2])

theorem findIdx?_name_spec (names : List String) (s : String) (j : Nat)
    (h : names.findIdx? (fun n => n = s) = some j) :
    ∃ hj : j < names.length, names[j] = s := by
  rw [List.findIdx?_eq_some_iff_findIdx_eq] at h
  obtain ⟨hj, hfi⟩ := h
  refine ⟨hj, ?_⟩
  have hp := @List.findIdx_getElem _ (fun n => decide (n = s)) names
    (by omega)
  have hjj : names[List.findIdx (fun n => decide (n = s)) names] = names[j] := by
    congr 1
  rw [hjj] at hp
  simpa using hp

theorem findIdx?_name_exists (names : List String) (s : String)
    (hs : s ∈ names) : ∃ j, names.findIdx? (fun n => n = s) = some j := by
  have hlt := @List.findIdx_lt_length_of_exists _ (fun n => decide (n = s))
    names ⟨s, hs, by simp⟩
  exact ⟨_, List.findIdx?_eq_some_iff_findIdx_eq.mpr ⟨hlt, rfl⟩⟩

theorem mem_selectedIndices_aux (names : List String) (sel : List String)
    (acc : List Nat) (j : Nat) :
    (j ∈ sel.foldl (fun a s =>
        match names.findIdx? (fun n => n = s) with
        | some i => a ++ [i]
        | none => a) acc)
    ↔ j ∈ acc ∨ ∃ s ∈ sel, names.findIdx? (fun n => n = s) = some j := by
  induction sel generalizing acc with
  | nil => simp
  | cons s sel ih =>
    simp only [List.foldl_cons]
    cases hf : names.findIdx? (fun n => n = s) with
    | none =>
      rw [ih]
      constructor
      · rintro (h | ⟨s', hs', hfs'⟩)
        · exact Or.inl h
        · exact Or.inr ⟨s', by simp [hs'], hfs'⟩
      · rintro (h | ⟨s', hs', hfs'⟩)
        · exact Or.inl h
        · rcases List.mem_cons.mp hs' with rfl | hs'
          · rw [hf] at hfs'
            cases hfs'
          · exact Or.inr ⟨s', hs', hfs'⟩
    | some i =>
      rw [ih]
      constructor
      · rintro (h | ⟨s', hs', hfs'⟩)
        · rcases List.mem_append.mp h with h | h
          · exact Or.inl h
          · simp only [List.mem_singleton] at h
            subst h
            exact Or.inr ⟨s, by simp, hf⟩
        · exact Or.inr ⟨s', by simp [hs'], hfs'⟩
      · rintro (h | ⟨s', hs', hfs'⟩)
        · exact Or.inl (List.mem_append.mpr (Or.inl h))
        · rcases List.mem_cons.mp hs' with rfl | hs'
          · rw [hf] at hfs'
            cases hfs'
            exact Or.inl (List.mem_append.mpr (Or.inr (by simp)))
          · exact Or.inr ⟨s', hs', hfs'⟩

theorem mem_selectedIndices (names : List String) (sel : List String) (j : Nat) :
    j ∈ selectedIndices names sel
    ↔ ∃ s ∈ sel, names.findIdx? (fun n => n = s) = some j := by
  rw [selectedIndices, mem_selectedIndices_aux]
  simp

theorem selectedIndices_nodup_aux (names : List String) (sel : List String)
    (acc : List Nat) (hacc : acc.Nodup)
    (hdisj : ∀ j ∈ acc, ∀ s ∈ sel, names.findIdx? (fun n => n = s) ≠ some j)
    (hsel : sel.Nodup) :
    (sel.foldl (fun a s =>
        match names.findIdx? (fun n => n = s) with
        | some i => a ++ [i]
        | none => a) acc).Nodup := by
  induction sel generalizing acc with
  | nil => exact hacc
  | cons s sel ih =>
    simp only [List.nodup_cons] at hsel
    simp only [List.foldl_cons]
    cases hf : names.findIdx? (fun n => n = s) with
    | none =>
      exact ih acc hacc
        (fun j hj s' hs' => hdisj j hj s' (by simp [hs'])) hsel.2
    | some i =>
      have hnoti : i ∉ acc := fun hin => hdisj i hin s (by simp) hf
      refine ih (acc ++ [i]) (by simp [List.nodup_append, hacc, hnoti]) ?_ hsel.2
      intro j hj s' hs' hfs'
      rcases List.mem_append.mp hj with hj | hj
      · exact hdisj j hj s' (by simp [hs']) hfs'
      · simp only [List.mem_singleton] at hj
        subst hj
        obtain ⟨hjl, hjv⟩ := findIdx?_name_spec names s' j hfs'
        obtain ⟨hil, hiv⟩ := findIdx?_name_spec names s j hf
        refine hsel.1 ?_
        rw [← hjv] at hs'
        rw [hiv] at hs'
        exact hs'

theorem selectedIndices_nodup (names : List String) (sel : List String)
    (hsel : sel.Nodup) : (selectedIndices names sel).Nodup :=
  selectedIndices_nodup_aux names sel [] (by simp) (by simp) hsel

theorem mem_selectBindings (bs : List FieldBinding) (indices : List Nat)
    (b : FieldBinding) :
    b ∈ selectBindings bs indices ↔ ∃ j ∈ indices, bs[j]? = some b := by
  simp [selectBindings, List.mem_filterMap]

theorem selectBindings_slots_nodup (bs : List FieldBinding)
    (indices : List Nat) (hslots : (bs.map FieldBinding.slot).Nodup)
    (hidx : indices.Nodup) :
    ((selectBindings bs indices).map FieldBinding.slot).Nodup := by
  induction indices with
  | nil => simp [selectBindings]
  | cons j js ih =>
    simp only [List.nodup_cons] at hidx
    simp only [selectBindings, List.filterMap_cons]
    cases hj : bs[j]? with
    | none => exact ih hidx.2
    | some b =>
      simp only [List.map_cons, List.nodup_cons]
      refine ⟨?_, ih hidx.2⟩
      intro hmem
      obtain ⟨b', hb', hslot⟩ := List.mem_map.mp hmem
      obtain ⟨j', hj', hbj'⟩ :=
        (mem_selectBindings bs js b').mp (by simpa [selectBindings] using hb')
      have hsj : (bs.map FieldBinding.slot)[j]? = some b.slot := by
        rw [List.getElem?_map, hj]
        rfl
      have hsj' : (bs.map FieldBinding.slot)[j']? = some b.slot := by
        rw [List.getElem?_map, hbj']
        simp [hslot]
      exact hidx.1 (nodup_getElem?_inj _ hslots j' j b.slot hsj' hsj ▸ hj')

/-- With duplicate-free column names, the bindings visited by
`ReadSelected` over `Collect`'s selected indices are exactly those whose
column name occurs in the selection. -/
theorem mem_selectBindings_selectedIndices (bs : List FieldBinding)
    (hnames : (bs.map FieldBinding.name).Nodup) (sel : List String)
    (b : FieldBinding) (hb : b ∈ bs) :
    b ∈ selectBindings bs (selectedIndices (bs.map FieldBinding.name) sel)
    ↔ b.name ∈ sel := by
  constructor
  · intro hmem
    obtain ⟨j, hj, hbj⟩ := (mem_selectBindings _ _ _).mp hmem
    obtain ⟨s, hs, hfs⟩ := (mem_selectedIndices _ _ _).mp hj
    obtain ⟨hjl, hjv⟩ := findIdx?_name_spec _ _ _ hfs
    have hmap : (bs.map FieldBinding.name)[j]? = some b.name := by
      rw [List.getElem?_map, hbj]
      rfl
    rw [List.getElem?_eq_getElem hjl, hjv] at hmap
    cases hmap
    rw [← hjv]
    exact hjv ▸ hs
  · intro hsel
    obtain ⟨p, hp⟩ := List.mem_iff_getElem?.mp hb
    have hpn : (bs.map FieldBinding.name)[p]? = some b.name := by
      rw [List.getElem?_map, hp]
      rfl
    have hmemn : b.name ∈ bs.map FieldBinding.name :=
      List.mem_map_of_mem _ hb
    obtain ⟨j, hj⟩ := findIdx?_name_exists _ _ hmemn
    obtain ⟨hjl, hjv⟩ := findIdx?_name_spec _ _ _ hj
    have hjn : (bs.map FieldBinding.name)[j]? = some b.name := by
      rw [List.getElem?_eq_getElem hjl, hjv]
    have hpj : p = j := nodup_getElem?_inj _ hnames p j b.name hpn hjn
    refine (mem_selectBindings _ _ _).mpr ⟨j, ?_, ?_⟩
    · exact (mem_selectedIndices _ _ _).mpr ⟨b.name, hsel, hj⟩
    · rw [← hpj]
      exact hp

/-- A binding whose column name was not selected shares its slot with no
binding visited by `ReadSelected` (slots and names duplicate-free). -/
theorem selectBindings_slot_ne (bs : List FieldBinding)
    (hslots : (bs.map FieldBinding.slot).Nodup) (sel : List String)
    (b : FieldBinding) (hb : b ∈ bs) (hnot : b.name ∉ sel) :
    ∀ b' ∈ selectBindings bs (selectedIndices (bs.map FieldBinding.name) sel),
      b'.slot ≠ b.slot := by
  intro b' hb' hslot
  obtain ⟨j, hj, hbj⟩ := (mem_selectBindings _ _ _).mp hb'
  obtain ⟨s, hs, hfs⟩ := (mem_selectedIndices _ _ _).mp hj
  obtain ⟨hjl, hjv⟩ := findIdx?_name_spec _ _ _ hfs
  obtain ⟨p, hp⟩ := List.mem_iff_getElem?.mp hb
  have hsj : (bs.map FieldBinding.slot)[j]? = some b.slot := by
    rw [List.getElem?_map, hbj]
    simp [hslot]
  have hsp : (bs.map FieldBinding.slot)[p]? = some b.slot := by
    rw [List.getElem?_map, hp]
    rfl
  have hjp : j = p := nodup_getElem?_inj _ hslots j p b.slot hsj hsp
  rw [hjp, hp] at hbj
  cases hbj
  apply hnot
  have hnm : (bs.map FieldBinding.name)[j]? = some b.name := by
    rw [hjp, List.getElem?_map, hp]
    rfl
  rw [List.getElem?_eq_getElem hjl, hjv] at hnm
  cases hnm
  exact hs

/-- The record-materialisation step of `ParquetQuery::Collect`: with a
non-empty selection, records come from `ReadSelected` over the selected
column indices; with an empty selection, from `ReadAll`. -/
def collectRecords (k : Nat) (dflt : α) (bs : List FieldBinding)
    (sel : List String) (src : ReaderHandle α) : List (List α) :=
  if sel.isEmpty then ReadAllM k dflt bs src
  else ReadSelectedM k dflt bs src
    (selectedIndices (bs.map FieldBinding.name) sel)

theorem runReaders_getElem?_some (dataOf : FieldBinding → Option (List α))
    (bs : List FieldBinding) (recs : List (List α)) (i : Nat) (r : List α)
    (hr : recs[i]? = some r) :
    ∃ r', (runReaders dataOf bs recs)[i]? = some r'
      ∧ r'.length = r.length := by
  induction bs generalizing recs r with
  | nil => exact ⟨r, hr, rfl⟩
  | cons b bs ih =>
    cases hdo : dataOf b with
    | none =>
      have hstep : runReaders dataOf (b :: bs) recs
          = runReaders dataOf bs recs := by
        simp only [runReaders, List.foldl_cons, hdo]
      rw [hstep]
      exact ih recs r hr
    | some data =>
      have hstep : runReaders dataOf (b :: bs) recs
          = runReaders dataOf bs (applyColReader data b.slot recs) := by
        simp only [runReaders, List.foldl_cons, hdo]
      rw [hstep]
      have hr1 : (applyColReader data b.slot recs)[i]?
          = some (match data[i]? with
              | some v => r.set b.slot v
              | none => r) := by
        rw [applyColReader_getElem?, hr]
        rfl
      obtain ⟨r', h1, h2⟩ := ih _ _ hr1
      refine ⟨r', h1, ?_⟩
      rw [h2]
      cases data[i]? <;> simp

/-- Slot closed form requiring only that every binding writing slot `t`
is one fixed binding `b` -- repetitions of `b` allowed, as `ReadSelected`
produces when the same column is selected twice: re-running `b`'s reader
assigns the same data, so the final value at slot `t` is `b`'s column
value at the row when present, else the initial record's value. -/
theorem runReaders_slot_unique (dataOf : FieldBinding → Option (List α))
    (i t : Nat) (b : FieldBinding) (hbt : b.slot = t) :
    ∀ bs : List FieldBinding, b ∈ bs →
      (∀ b' ∈ bs, b'.slot = t → b' = b) →
      ∀ (recs : List (List α)) (r : List α),
        recs[i]? = some r → t < r.length →
        ∃ r', (runReaders dataOf bs recs)[i]? = some r'
          ∧ r'.length = r.length
          ∧ r'[t]? = (match dataOf b with
              | some data =>
                match data[i]? with
                | some v => some v
                | none => r[t]?
              | none => r[t]?) := by
  intro bs
  induction bs with
  | nil => intro h; cases h
  | cons b0 bs ih =>
    intro hmem huniq recs r hr ht
    have huniq' : ∀ b' ∈ bs, b'.slot = t → b' = b := fun b' h =>
      huniq b' (List.mem_cons_of_mem _ h)
    by_cases hb0t : b0.slot = t
    · have hb0 : b0 = b := huniq b0 (List.mem_cons_self _ _) hb0t
      subst hb0
      cases hdo : dataOf b0 with
      | none =>
        have hstep : runReaders dataOf (b0 :: bs) recs
            = runReaders dataOf bs recs := by
          simp only [runReaders, List.foldl_cons, hdo]
        rw [hstep]
        by_cases hbin : b0 ∈ bs
        · obtain ⟨r', h1, h2, h3⟩ := ih hbin huniq' recs r hr ht
          simp only [hdo] at h3
          exact ⟨r', h1, h2, h3⟩
        · have hnone : ∀ b' ∈ bs, b'.slot ≠ t := by
            intro b' hb' hslot
            exact hbin ((huniq' b' hb' hslot) ▸ hb')
          obtain ⟨r', h1, h2⟩ := runReaders_getElem?_some dataOf bs recs i r hr
          refine ⟨r', h1, h2, ?_⟩
          have hv := runReaders_no_slot dataOf bs recs i t hnone
          rw [h1, hr] at hv
          simpa using hv
      | some data =>
        have hstep : runReaders dataOf (b0 :: bs) recs
            = runReaders dataOf bs (applyColReader data b0.slot recs) := by
          simp only [runReaders, List.foldl_cons, hdo]
        rw [hstep]
        have hr1 : (applyColReader data b0.slot recs)[i]?
            = some (match data[i]? with
                | some v => r.set b0.slot v
                | none => r) := by
          rw [applyColReader_getElem?, hr]
          rfl
        have hlen1 : (match data[i]? with
            | some v => r.set b0.slot v
            | none => r).length = r.length := by
          cases data[i]? <;> simp
        have hval1 : (match data[i]? with
            | some v => r.set b0.slot v
            | none => r)[t]? = (match data[i]? with
                | some v => some v
                | none => r[t]?) := by
          cases data[i]? with
          | none => rfl
          | some v =>
            simp only
            rw [hbt]
            exact List.getElem?_set_eq_of_lt _ (by omega)
        by_cases hbin : b0 ∈ bs
        · obtain ⟨r', h1, h2, h3⟩ := ih hbin huniq' _ _ hr1 (by omega)
          simp only [hdo] at h3
          refine ⟨r', h1, by omega, ?_⟩
          rw [h3]
          show (match data[i]? with
              | some v => some v
              | none => (match data[i]? with
                  | some v => r.set b0.slot v
                  | none => r)[t]?)
            = (match data[i]? with
              | some v => some v
              | none => r[t]?)
          cases data[i]? with
          | some v => rfl
          | none => rfl
        · have hnone : ∀ b' ∈ bs, b'.slot ≠ t := by
            intro b' hb' hslot
            exact hbin ((huniq' b' hb' hslot) ▸ hb')
          obtain ⟨r', h1, h2⟩ := runReaders_getElem?_some dataOf bs
            (applyColReader data b0.slot recs) i
            (match data[i]? with
              | some v => r.set b0.slot v
              | none => r) hr1
          refine ⟨r', h1, by omega, ?_⟩
          have hv := runReaders_no_slot dataOf bs
            (applyColReader data b0.slot recs) i t hnone
          rw [h1, hr1] at hv
          simp only [Option.some_bind] at hv
          rw [hv, hval1]
    · have hb0mem : b ∈ bs := by
        rcases List.mem_cons.mp hmem with rfl | h
        · exact absurd hbt hb0t
        · exact h
      cases hdo : dataOf b0 with
      | none =>
        have hstep : runReaders dataOf (b0 :: bs) recs
            = runReaders dataOf bs recs := by
          simp only [runReaders, List.foldl_cons, hdo]
        rw [hstep]
        exact ih hb0mem huniq' recs r hr ht
      | some data =>
        have hstep : runReaders dataOf (b0 :: bs) recs
            = runReaders dataOf bs (applyColReader data b0.slot recs) := by
          simp only [runReaders, List.foldl_cons, hdo]
        rw [hstep]
        have hr1 : (applyColReader data b0.slot recs)[i]?
            = some (match data[i]? with
                | some v => r.set b0.slot v
                | none => r) := by
          rw [applyColReader_getElem?, hr]
          rfl
        have hlen1 : (match data[i]? with
            | some v => r.set b0.slot v
            | none => r).length = r.length := by
          cases data[i]? <;> simp
        have hval1 : (match data[i]? with
            | some v => r.set b0.slot v
            | none => r)[t]? = r[t]? := by
          cases data[i]? with
          | none => rfl
          | some v =>
            simp only
            exact List.getElem?_set_ne hb0t
        obtain ⟨r', h1, h2, h3⟩ := ih hb0mem huniq' _ _ hr1 (by omega)
        rw [hval1] at h3
        exact ⟨r', h1, by omega, h3⟩

/-- Every binding visited by `ReadSelected` comes from the codec's
binding list. -/
theorem mem_of_mem_selectBindings (bs : List FieldBinding)
    (indices : List Nat) :
    ∀ b' ∈ selectBindings bs indices, b' ∈ bs := by
  intro b' h
  obtain ⟨j, hj, hbj⟩ := (mem_selectBindings bs indices b').mp h
  obtain ⟨hl, hv⟩ := List.getElem?_eq_some_iff.mp hbj
  exact hv ▸ List.getElem_mem hl

/-- With duplicate-free slots, two bindings of the codec sharing a slot
are the same binding. -/
theorem slot_nodup_inj (bs : List FieldBinding)
    (hslots : (bs.map FieldBinding.slot).Nodup) (b b' : FieldBinding)
    (hb : b ∈ bs) (hb' : b' ∈ bs) (h : b'.slot = b.slot) : b' = b := by
  obtain ⟨p, hp⟩ := List.mem_iff_getElem?.mp hb
  obtain ⟨q, hq⟩ := List.mem_iff_getElem?.mp hb'
  have h1 : (bs.map FieldBinding.slot)[p]? = some b.slot := by
    rw [List.getElem?_map, hp]
    rfl
  have h2 : (bs.map FieldBinding.slot)[q]? = some b.slot := by
    rw [List.getElem?_map, hq]
    simp [h]
  have hqp : q = p := nodup_getElem?_inj _ hslots q p b.slot h2 h1
  rw [hqp, hp] at hq
  injection hq with h3
  exact h3.symm

/-- C3: for every query with a non-empty column selection (duplicate
selections included), Collect materialises records via `ReadSelected`
over the selected column indices; every output field whose column was
selected equals the corresponding field of the unfiltered full read over
the same reader handle, and every field whose column was not selected
keeps its type's default value. -/
theorem collect_runs_selected_readers (k : Nat) (dflt : α)
    (bs : List FieldBinding) (sel : List String) (src : ReaderHandle α)
    (hnames : (bs.map FieldBinding.name).Nodup)
    (hslots : (bs.map FieldBinding.slot).Nodup)
    (hk : ∀ b ∈ bs, b.slot < k)
    (hsel : sel ≠ []) :
    collectRecords k dflt bs sel src
      = ReadSelectedM k dflt bs src
          (selectedIndices (bs.map FieldBinding.name) sel)
    ∧ (collectRecords k dflt bs sel src).length = src.numRows
    ∧ ∀ b ∈ bs, ∀ i, i < src.numRows →
        (b.name ∈ sel →
          ((collectRecords k dflt bs sel src)[i]?).bind (fun r => r[b.slot]?)
            = ((ReadAllM k dflt bs src)[i]?).bind (fun r => r[b.slot]?))
        ∧ (b.name ∉ sel →
          ((collectRecords k dflt bs sel src)[i]?).bind (fun r => r[b.slot]?)
            = some dflt) := by
  have hempty : sel.isEmpty = false := by
    cases sel with
    | nil => exact absurd rfl hsel
    | cons a l => rfl
  have hcr : collectRecords k dflt bs sel src
      = ReadSelectedM k dflt bs src
          (selectedIndices (bs.map FieldBinding.name) sel) := by
    simp [collectRecords, hempty]
  refine ⟨hcr, ?_, ?_⟩
  · rw [hcr]
    unfold ReadSelectedM
    rw [runReaders_length]
    simp
  · intro b hb i hi
    have hrow : (List.replicate src.numRows (defaultRecord k dflt))[i]?
        = some (defaultRecord k dflt) := by
      simp [List.getElem?_replicate, hi]
    have hbk : b.slot < (defaultRecord k dflt).length := by
      simpa [defaultRecord] using hk b hb
    constructor
    · intro hmem
      have hbin : b ∈ selectBindings bs
          (selectedIndices (bs.map FieldBinding.name) sel) :=
        (mem_selectBindings_selectedIndices bs hnames sel b hb).mpr hmem
      have huniq1 : ∀ b' ∈ selectBindings bs
          (selectedIndices (bs.map FieldBinding.name) sel),
          b'.slot = b.slot → b' = b := fun b' hb' hs =>
        slot_nodup_inj bs hslots b b' hb
          (mem_of_mem_selectBindings bs _ b' hb') hs
      have huniq2 : ∀ b' ∈ bs, b'.slot = b.slot → b' = b :=
        fun b' hb' hs => slot_nodup_inj bs hslots b b' hb hb' hs
      obtain ⟨r1, e1, l1, v1⟩ := runReaders_slot_unique
        (fun b => some (src.col b.name)) i b.slot b rfl _ hbin huniq1
        _ _ hrow hbk
      obtain ⟨r2, e2, l2, v2⟩ := runReaders_slot_unique
        (fun b => some (src.col b.name)) i b.slot b rfl bs hb huniq2
        _ _ hrow hbk
      rw [hcr]
      unfold ReadSelectedM ReadAllM
      rw [e1, e2]
      simp only [Option.some_bind]
      rw [v1, v2]
    · intro hmem
      have hne := selectBindings_slot_ne bs hslots sel b hb hmem
      rw [hcr]
      unfold ReadSelectedM
      rw [runReaders_no_slot _ _ _ i b.slot hne, hrow]
      simp only [Option.some_bind]
      simp [defaultRecord, List.getElem?_replicate, hk b hb]

/-- Witness for the C3 theorem on a concrete two-column codec with the
first column selected. -/
theorem collect_runs_selected_readers_witness :
    ((([⟨"a", 0, .prim⟩, ⟨"b", 1, .prim⟩] : List FieldBinding).map
        FieldBinding.name).Nodup
      ∧ (([⟨"a", 0, .prim⟩, ⟨"b", 1, .prim⟩] : List FieldBinding).map
        FieldBinding.slot).Nodup
      ∧ (∀ b ∈ ([⟨"a", 0, .prim⟩, ⟨"b", 1, .prim⟩] : List FieldBinding),
          b.slot < 2)
      ∧ (["a"] : List String) ≠ [])
    ∧ (collectRecords 2 (0 : Nat) [⟨"a", 0, .prim⟩, ⟨"b", 1, .prim⟩] ["a"]
          ⟨1, fun _ => [7]⟩
        = ReadSelectedM 2 0 [⟨"a", 0, .prim⟩, ⟨"b", 1, .prim⟩]
            ⟨1, fun _ => [7]⟩
            (selectedIndices
              (([⟨"a", 0, .prim⟩, ⟨"b", 1, .prim⟩] : List FieldBinding).map
                FieldBinding.name) ["a"])
      ∧ (collectRecords 2 (0 : Nat) [⟨"a", 0, .prim⟩, ⟨"b", 1, .prim⟩] ["a"]
          ⟨1, fun _ => [7]⟩).length = (1 : Nat)
      ∧ ∀ b ∈ ([⟨"a", 0, .prim⟩, ⟨"b", 1, .prim⟩] : List FieldBinding),
          ∀ i, i < 1 →
          (b.name ∈ (["a"] : List String) →
            ((collectRecords 2 (0 : Nat) [⟨"a", 0, .prim⟩, ⟨"b", 1, .prim⟩]
                ["a"] ⟨1, fun _ => [7]⟩)[i]?).bind (fun r => r[b.slot]?)
              = ((ReadAllM 2 0 [⟨"a", 0, .prim⟩, ⟨"b", 1, .prim⟩]
                  ⟨1, fun _ => [7]⟩)[i]?).bind (fun r => r[b.slot]?))
          ∧ (b.name ∉ (["a"] : List String) →
            ((collectRecords 2 (0 : Nat) [⟨"a", 0, .prim⟩, ⟨"b", 1, .prim⟩]
                ["a"] ⟨1, fun _ => [7]⟩)[i]?).bind (fun r => r[b.slot]?)
              = some 0)) :=
  ⟨⟨by decide, by decide, by decide, by decide⟩,
    collect_runs_selected_readers 2 0 [⟨"a", 0, .prim⟩, ⟨"b", 1, .prim⟩]
      ["a"] ⟨1, fun _ => [7]⟩ (by decide) (by decide) (by decide)
      (by decide)⟩

theorem foldl_addChunk_chunks_filter (cs : List (List α))
    (acc : ColumnAccessor α) :
    (cs.foldl AddChunk acc).chunks
      = acc.chunks ++ cs.filter (fun ch => decide (0 < ch.length)) := by
  induction cs generalizing acc with
  | nil => simp
  | cons c cs ih =>
    simp only [List.foldl_cons]
    rw [ih]
    by_cases hc : 0 < c.length
    · simp [AddChunk, hc, List.filter_cons]
    · simp [AddChunk, hc, List.filter_cons]

theorem flatten_filter_pos (cs : List (List α)) :
    (cs.filter (fun ch => decide (0 < ch.length))).flatten = cs.flatten := by
  induction cs with
  | nil => rfl
  | cons c cs ih =>
    by_cases hc : 0 < c.length
    · simp [List.filter_cons, hc, ih]
    · have : c = [] := by
        cases c with
        | nil => rfl
        | cons x xs => simp at hc
      simp [List.filter_cons, hc, ih, this]

theorem filter_pos_ne_nil (cs : List (List α)) :
    ∀ ch ∈ cs.filter (fun ch => decide (0 < ch.length)), ch ≠ [] := by
  intro ch hch
  have := List.of_mem_filter hch
  simp at this
  exact List.length_pos.mp this

/-- The state built by any `AddChunk` sequence, empty chunks included:
only the positive-length chunks are stored. -/
theorem buildAccessor_eq_filter (cs : List (List α)) :
    buildAccessor cs
      = ⟨cs.filter (fun ch => decide (0 < ch.length)),
         prefixSums ((cs.filter (fun ch => decide (0 < ch.length))).map
           List.length),
         ((cs.filter (fun ch => decide (0 < ch.length))).map
           List.length).sum⟩ := by
  obtain ⟨h1, h2, -⟩ := buildAccessor_inv (α := α) cs
  have hc : (buildAccessor cs).chunks
      = cs.filter (fun ch => decide (0 < ch.length)) := by
    rw [buildAccessor, foldl_addChunk_chunks_filter]
    simp [ColumnAccessor.empty]
  cases hb : buildAccessor cs with
  | mk a b t =>
    rw [hb] at h1 h2 hc
    simp only at h1 h2 hc
    subst hc
    rw [h1, h2]

/-- `accIterList ∘ buildAccessor` flattens the added chunks, empty chunks
included (they are filtered out by `AddChunk`). -/
theorem accIterList_build (cs : List (List α)) :
    accIterList (buildAccessor cs) = cs.flatten := by
  have hne := filter_pos_ne_nil cs
  have heq : buildAccessor cs
      = buildAccessor (cs.filter (fun ch => decide (0 < ch.length))) := by
    rw [buildAccessor_eq_filter cs, ← buildAccessor_eq _ hne]
  rw [heq]
  unfold accIterList
  rw [buildAccessor_chunks _ hne, buildAccessor_size _ hne,
    iterOut_build _ hne, flatten_filter_pos]

/-- `ffi::FilterOp`. -/
inductive FilterOp
  | feq
  | fne
  | flt
  | fle
  | fgt
  | fge
deriving DecidableEq, Repr

/-- A stored `FilterEntry` of the query builders: the resolved column name
and the operator; the typed operand is captured inside the opaque `apply`
closure handed to the engine and plays no role in scan-column planning. -/
structure FilterEntry where
  column : String
  op : FilterOp
deriving DecidableEq, Repr

/-- The scan-column loop shared by `ParquetQuery::Collect` and
`DataFrameBuilder::Collect`: start from the selected (or effective)
columns and append each filter column not already present. -/
def scanColumns (selected : List String) (filterCols : List String) :
    List String :=
  filterCols.foldl (fun sc c => if c ∈ sc then sc else sc ++ [c]) selected

/-- The engine interaction performed by `DataFrameBuilder::Collect`. -/
inductive BuilderPlan
  | plainOpen
  | projectedOpen (cols : List String)
  | filteredCollect (projection : Option (List String))
      (filters : List FilterEntry)
deriving DecidableEq, Repr

/-- `DataFrameBuilder::Collect`: with no filters, a plain or projected
open (no filtering pass); with filters, a query with an optional
projection over the scan columns and every filter applied in order. -/
def builderCollectPlan (select_names : List String)
    (filters : List FilterEntry) : BuilderPlan :=
  if filters.isEmpty then
    if select_names.isEmpty then .plainOpen
    else .projectedOpen select_names
  else
    .filteredCollect
      (if select_names.isEmpty then none
       else some (scanColumns select_names (filters.map FilterEntry.column)))
      filters

theorem scanColumns_cons (selected : List String) (c : String)
    (fcs : List String) :
    scanColumns selected (c :: fcs)
      = scanColumns (if c ∈ selected then selected else selected ++ [c]) fcs := by
  rfl

/-- Characterisation of the scan-column computation: the selected columns
are kept verbatim as a prefix, and exactly the filter columns not already
selected are appended, each at most once, ordered by their first
occurrence among the filter columns (the `Pairwise` conjunct: along
`extra`, the index of the first occurrence strictly increases). -/
theorem scanColumns_spec (selected filterCols : List String) :
    ∃ extra, scanColumns selected filterCols = selected ++ extra
      ∧ extra.Nodup
      ∧ (∀ c ∈ extra, c ∈ filterCols ∧ c ∉ selected)
      ∧ (∀ c ∈ filterCols, c ∉ selected → c ∈ extra)
      ∧ extra.Pairwise (fun x y =>
          filterCols.indexOf x < filterCols.indexOf y) := by
  induction filterCols generalizing selected with
  | nil => exact ⟨[], by simp [scanColumns], by simp, by simp, by simp, by simp⟩
  | cons c fcs ih =>
    rw [scanColumns_cons]
    by_cases hc : c ∈ selected
    · rw [if_pos hc]
      obtain ⟨extra, heq, hnd, hmem, hcov, hord⟩ := ih selected
      refine ⟨extra, heq, hnd, ?_, ?_, ?_⟩
      · intro x hx
        exact ⟨List.mem_cons_of_mem _ (hmem x hx).1, (hmem x hx).2⟩
      · intro x hx hxs
        rcases List.mem_cons.mp hx with rfl | hx
        · exact absurd hc hxs
        · exact hcov x hx hxs
      · refine hord.imp_of_mem ?_
        intro x y hx hy hxy
        have hxc : c ≠ x := fun h => (hmem x hx).2 (h ▸ hc)
        have hyc : c ≠ y := fun h => (hmem y hy).2 (h ▸ hc)
        rw [List.indexOf_cons_ne fcs hxc, List.indexOf_cons_ne fcs hyc]
        omega
    · rw [if_neg hc]
      obtain ⟨extra, heq, hnd, hmem, hcov, hord⟩ := ih (selected ++ [c])
      have hnotc : ∀ x ∈ extra, c ≠ x := by
        intro x hx h
        exact (hmem x hx).2 (List.mem_append.mpr (Or.inr (by simp [h])))
      refine ⟨c :: extra, by rw [heq, List.append_assoc]; rfl, ?_, ?_, ?_, ?_⟩
      · rw [List.nodup_cons]
        refine ⟨fun hcx => ?_, hnd⟩
        exact (hmem c hcx).2 (List.mem_append.mpr (Or.inr (by simp)))
      · intro x hx
        rcases List.mem_cons.mp hx with rfl | hx
        · exact ⟨by simp, hc⟩
        · refine ⟨List.mem_cons_of_mem _ (hmem x hx).1, fun hxs => ?_⟩
          exact (hmem x hx).2 (List.mem_append.mpr (Or.inl hxs))
      · intro x hx hxs
        rcases List.mem_cons.mp hx with rfl | hx
        · exact List.mem_cons_self _ _
        · by_cases hxc : x = c
          · subst hxc
            exact List.mem_cons_self _ _
          · refine List.mem_cons_of_mem _ (hcov x hx ?_)
            simp [hxs, hxc]
      · rw [List.pairwise_cons]
        constructor
        · intro y hy
          rw [List.indexOf_cons_self, List.indexOf_cons_ne fcs (hnotc y hy)]
          omega
        · refine hord.imp_of_mem ?_
          intro x y hx hy hxy
          rw [List.indexOf_cons_ne fcs (hnotc x hx),
            List.indexOf_cons_ne fcs (hnotc y hy)]
          omega

/-- C2 counterexample: a query spec that selects the same column twice
produces a scan-column list with that column twice, refuting the claim's
"no column appearing twice" for every query spec. -/
theorem scan_columns_duplicate_counterexample :
    scanColumns ["a", "a"] [] = ["a", "a"]
    ∧ ¬ (scanColumns ["a", "a"] []).Nodup := by
  constructor
  · rfl
  · decide

/-- C2 (amended): the scan columns are the selected columns in original
order followed by each predicate column not already present, appended in
predicate order -- the order of each column's first occurrence among the
predicate columns, expressed by the `Pairwise` conjunct over the appended
suffix -- each appended at most once; the whole list is duplicate-free
whenever the selected columns are; and with no predicates
`DataFrameBuilder::Collect` performs a plain (possibly projected) open
with no filtering pass. -/
theorem collect_scan_columns (selected : List String)
    (filters : List FilterEntry) :
    (∃ extra, scanColumns selected (filters.map FilterEntry.column)
        = selected ++ extra
      ∧ extra.Nodup
      ∧ (∀ c ∈ extra, c ∈ filters.map FilterEntry.column ∧ c ∉ selected)
      ∧ (∀ c ∈ filters.map FilterEntry.column, c ∉ selected → c ∈ extra)
      ∧ extra.Pairwise (fun x y =>
          (filters.map FilterEntry.column).indexOf x
            < (filters.map FilterEntry.column).indexOf y))
    ∧ (selected.Nodup →
        (scanColumns selected (filters.map FilterEntry.column)).Nodup)
    ∧ (filters = [] →
        builderCollectPlan selected filters
          = if selected.isEmpty then .plainOpen
            else .projectedOpen selected) := by
  refine ⟨scanColumns_spec selected _, ?_, ?_⟩
  · intro hnd
    obtain ⟨extra, heq, hend, hmem, -, -⟩ := scanColumns_spec selected
      (filters.map FilterEntry.column)
    rw [heq, List.nodup_append]
    exact ⟨hnd, hend, fun a ha hb => (hmem a hb).2 ha⟩
  · intro hf
    subst hf
    rfl

/-- Witness for the C2 amended theorem at a concrete spec: one selected
column, one filter on another column, and the no-filter builder case. -/
theorem collect_scan_columns_witness :
    ((["px"] : List String).Nodup
      ∧ (scanColumns ["px"]
          (([⟨"qty", .fgt⟩] : List FilterEntry).map FilterEntry.column)).Nodup)
    ∧ (([] : List FilterEntry) = []
      ∧ builderCollectPlan ["px"] []
          = if (["px"] : List String).isEmpty then .plainOpen
            else .projectedOpen ["px"]) :=
  ⟨⟨by decide, (collect_scan_columns ["px"] [⟨"qty", .fgt⟩]).2.1 (by decide)⟩,
   ⟨rfl, (collect_scan_columns ["px"] []).2.2 rfl⟩⟩

/-- The registration state of `ParquetCodec<Record>`: the parallel lists
`column_names_` and `column_offsets_` appended by `Add` (reader and writer
closures aside). -/
structure CodecState where
  column_names : List String
  column_offsets : List Int
deriving DecidableEq, Repr

/-- `ParquetCodec::Add`: unconditionally pushes the column name and the
member's byte offset; there is no duplicate-identity check and no error
path. -/
def codecAdd (c : CodecState) (name : String) (offset : Int) : CodecState :=
  ⟨c.column_names ++ [name], c.column_offsets ++ [offset]⟩

/-- `ParquetCodec::FindColumnName`: linear scan over `column_offsets_`,
returning the column name at the first matching offset; an offset that was
never registered raises a runtime error. -/
def FindColumnName (c : CodecState) (target : Int) : Except String String :=
  match c.column_offsets.findIdx? (fun o => o = target) with
  | some i =>
    match c.column_names[i]? with
    | some n => .ok n
    | none => .error "Member pointer not registered in codec"
  | none => .error "Member pointer not registered in codec"

/-- C6 counterexample: registering a second binding with the same byte
offset raises no error -- `Add` is total and simply appends, leaving two
bindings with the same identity (the stored offsets are not
duplicate-free), so the identity map is not injective. -/
theorem codec_add_duplicate_counterexample :
    codecAdd (codecAdd ⟨[], []⟩ "a" 0) "b" 0 = ⟨["a", "b"], [0, 0]⟩
    ∧ ¬ ((codecAdd (codecAdd ⟨[], []⟩ "a" 0) "b" 0).column_offsets).Nodup := by
  constructor
  · rfl
  · decide

/-- C6 (amended): `Add` performs no duplicate check -- a second binding
with an already-registered identity is appended alongside the first -- and
`FindColumnName` resolves an offset to the column name of the first
binding registered with that offset, raising the lookup error only for
offsets never registered. -/
theorem codec_add_find_first (c : CodecState) (target : Int) :
    (∀ (name : String) (offset : Int),
      codecAdd c name offset
        = ⟨c.column_names ++ [name], c.column_offsets ++ [offset]⟩)
    ∧ (c.column_offsets.findIdx? (fun o => o = target) = none →
        FindColumnName c target
          = .error "Member pointer not registered in codec")
    ∧ (∀ i n, c.column_offsets.findIdx? (fun o => o = target) = some i →
        c.column_names[i]? = some n →
        FindColumnName c target = .ok n) := by
  refine ⟨fun name offset => rfl, ?_, ?_⟩
  · intro h
    unfold FindColumnName
    rw [h]
  · intro i n hi hn
    unfold FindColumnName
    rw [hi]
    simp only [hn]

/-- Witness for the C6 amended theorem on the duplicated-offset codec:
offset 0 resolves to the first binding's name and offset 5 errors. -/
theorem codec_add_find_first_witness :
    ((⟨["a", "b"], [0, 0]⟩ : CodecState).column_offsets.findIdx?
        (fun o => o = (5 : Int)) = none
      ∧ FindColumnName ⟨["a", "b"], [0, 0]⟩ 5
          = .error "Member pointer not registered in codec")
    ∧ ((⟨["a", "b"], [0, 0]⟩ : CodecState).column_offsets.findIdx?
        (fun o => o = (0 : Int)) = some 0
      ∧ (⟨["a", "b"], [0, 0]⟩ : CodecState).column_names[0]? = some "a"
      ∧ FindColumnName ⟨["a", "b"], [0, 0]⟩ 0 = .ok "a") :=
  ⟨⟨by decide, (codec_add_find_first ⟨["a", "b"], [0, 0]⟩ 5).2.1 (by decide)⟩,
   ⟨by decide, rfl,
    (codec_add_find_first ⟨["a", "b"], [0, 0]⟩ 0).2.2 0 "a" (by decide) rfl⟩⟩

/-- The `DataFrame` as the generated `df_readers_` observe it: a row
count, the chunk lists behind `GetColumn<T>`, and the allocating
`GetStringColumn` fetch. -/
structure DataFrameHandle (α : Type u) where
  numRows : Nat
  chunksOf : String → List (List α)
  strCol : String → List α

/-- The data a binding's DataFrame reader assigns, per the `if constexpr`
branch of `ParquetCodec::Add` that generated it.  Primitive readers
iterate the chunked zero-copy accessor built by `GetColumn`; string
readers fetch the allocating string column; the bool branch fetches
`parquet_df_get_string_column` and discards the result without assigning
to any record (its own comment reads "Actually we need bool getter"), so
it contributes no data (`none`). -/
def dfDataOf (df : DataFrameHandle α) (b : FieldBinding) :
    Option (List α) :=
  match b.kind with
  | .prim => some (accIterList (buildAccessor (df.chunksOf b.name)))
  | .text => some (df.strCol b.name)
  | .boolean => none

/-- `ParquetCodec::ReadAllFromDf`, the body of `DataFrame::ReadAllAs`:
default-construct `NumRows()` records, then run every `df_readers_` entry
in registration order. -/
def ReadAllFromDf (k : Nat) (dflt : α) (bs : List FieldBinding)
    (df : DataFrameHandle α) : List (List α) :=
  runReaders (dfDataOf df) bs
    (List.replicate df.numRows (defaultRecord k dflt))

/-- C4, evaluated at the failing input: one registered bool field
`active`, a one-row DataFrame whose stored `active` column holds `true`.
`ReadAllFromDf` leaves the field at its default `false` because the
registered bool reader discards the fetched column instead of assigning
the stored values. -/
theorem bool_reader_stub_drops_values :
    ReadAllFromDf 1 false [⟨"active", 0, .boolean⟩]
        ⟨1, fun _ => [[true]], fun _ => []⟩ = [[false]]
    ∧ (⟨1, fun _ => [[true]], fun _ => []⟩ : DataFrameHandle Bool).chunksOf
        "active" = [[true]]
    ∧ ([[false]] : List (List Bool)) ≠ [[true]] := by
  refine ⟨rfl, rfl, by decide⟩

universe v

/-- `ParquetWriter<Record>`: the in-memory record buffer and the
`finalized_` flag (the path plays no role in the state machine). -/
structure PWriter (ρ : Type v) where
  buffer : List ρ
  finalized : Bool
deriving DecidableEq, Repr

/-- A freshly constructed writer. -/
def writerNew {ρ : Type v} : PWriter ρ := ⟨[], false⟩

/-- `ParquetWriter::WriteRecord`: buffered, no engine call. -/
def WriteRecordW {ρ : Type v} (w : PWriter ρ) (r : ρ) : PWriter ρ :=
  ⟨w.buffer ++ [r], w.finalized⟩

/-- `ParquetWriter::WriteRecords`: buffered, no engine call. -/
def WriteRecordsW {ρ : Type v} (w : PWriter ρ) (rs : List ρ) : PWriter ρ :=
  ⟨w.buffer ++ rs, w.finalized⟩

/-- `ParquetWriter::Finish`: the post-state paired with the engine write
the call performs (`none` = no `parquet_writer_new`/`writer_finish` call,
hence no file; `some rs` = one file written holding `rs`). -/
def FinishW {ρ : Type v} (w : PWriter ρ) : PWriter ρ × Option (List ρ) :=
  if w.finalized then (w, none)
  else (⟨w.buffer, true⟩, if w.buffer.isEmpty then none else some w.buffer)

/-- `ParquetWriter::Discard`: clears the buffer and marks finalized; it
performs no engine call by construction. -/
def DiscardW {ρ : Type v} (_w : PWriter ρ) : PWriter ρ := ⟨[], true⟩

/-- `~ParquetWriter`: best-effort `Finish()` when not finalized and the
buffer is non-empty; the result is the engine write performed. -/
def destructW {ρ : Type v} (w : PWriter ρ) : Option (List ρ) :=
  if ¬ w.finalized ∧ ¬ w.buffer.isEmpty then (FinishW w).2 else none

/-- The move constructor: the target takes over the buffer and flag; the
moved-from writer's buffer is moved out and its `finalized_` is set, which
prevents a double finish. -/
def moveCtorW {ρ : Type v} (w : PWriter ρ) : PWriter ρ × PWriter ρ :=
  (⟨w.buffer, w.finalized⟩, ⟨[], true⟩)

/-- C9: `Finish` on an empty buffer performs no engine call and creates no
file; a second `Finish` after a successful one is a no-op; `Discard`
clears the buffer and marks the writer finished without any storage call,
so a writer that buffered records and was then discarded leaves no file
even after its destructor runs. -/
theorem writer_finish_discard {ρ : Type v} :
    (∀ w : PWriter ρ, w.buffer = [] → (FinishW w).2 = none)
    ∧ (∀ w : PWriter ρ, (FinishW (FinishW w).1).2 = none)
    ∧ (∀ w : PWriter ρ, (DiscardW w).buffer = []
        ∧ (DiscardW w).finalized = true)
    ∧ (∀ rs : List ρ,
        destructW (DiscardW (WriteRecordsW writerNew rs)) = none
        ∧ (FinishW (DiscardW (WriteRecordsW writerNew rs))).2 = none) := by
  refine ⟨?_, ?_, ?_, ?_⟩
  · intro w h
    unfold FinishW
    split
    · rfl
    · simp [h]
  · intro w
    unfold FinishW
    split
    · next hfin =>
      simp [hfin]
    · rfl
  · intro w
    exact ⟨rfl, rfl⟩
  · intro rs
    exact ⟨rfl, rfl⟩

/-- Witness for the C9 theorem on concrete writers. -/
theorem writer_finish_discard_witness :
    (FinishW (⟨[], false⟩ : PWriter Nat)).2 = none
    ∧ (FinishW (FinishW (⟨[3], false⟩ : PWriter Nat)).1).2 = none
    ∧ destructW (DiscardW (WriteRecordsW writerNew [3, 4])) = none :=
  ⟨(writer_finish_discard (ρ := Nat)).1 ⟨[], false⟩ rfl,
   (writer_finish_discard (ρ := Nat)).2.1 ⟨[3], false⟩,
   ((writer_finish_discard (ρ := Nat)).2.2.2 [3, 4]).1⟩

/-- The chain of writers produced by repeatedly move-constructing from the
previous one. -/
def moveChainW {ρ : Type v} (w : PWriter ρ) : Nat → PWriter ρ
  | 0 => w
  | n + 1 => (moveCtorW (moveChainW w n)).1

/-- C10: move construction marks the moved-from writer finalized, so its
destructor and any later `Finish` perform no engine write; the target
carries the buffered state unchanged, so through any chain of moves the
records are flushed by at most one engine write -- the final holder's
`Finish` -- which writes exactly what the original writer would have, and
the destructor after that `Finish` writes nothing. -/
theorem writer_move_single_flush {ρ : Type v} :
    (∀ w : PWriter ρ, (moveCtorW w).2.finalized = true
        ∧ destructW (moveCtorW w).2 = none
        ∧ (FinishW (moveCtorW w).2).2 = none)
    ∧ (∀ w : PWriter ρ, (moveCtorW w).1 = w)
    ∧ (∀ (w : PWriter ρ) (n : Nat),
        destructW (moveCtorW (moveChainW w n)).2 = none
        ∧ (FinishW (moveChainW w n)).2 = (FinishW w).2
        ∧ destructW (FinishW (moveChainW w n)).1 = none) := by
  have hmv : ∀ w : PWriter ρ, (moveCtorW w).1 = w := by
    intro w
    cases w
    rfl
  have hchain : ∀ (w : PWriter ρ) (n : Nat), moveChainW w n = w := by
    intro w n
    induction n with
    | zero => rfl
    | succ m ih =>
      show (moveCtorW (moveChainW w m)).1 = w
      rw [ih, hmv]
  refine ⟨?_, hmv, ?_⟩
  · intro w
    exact ⟨rfl, rfl, rfl⟩
  · intro w n
    refine ⟨rfl, by rw [hchain], ?_⟩
    rw [hchain]
    unfold destructW FinishW
    split
    · next hfin =>
      simp [hfin]
    · simp

/-- One column emitted by a binding's registered writer:
`data.push_back(rec.*accessor)` over every buffered record. -/
def writeColumn (b : FieldBinding) (dflt : α) (records : List (List α)) :
    List α :=
  records.map (fun r => r.getD b.slot dflt)

/-- `ParquetCodec::WriteAll`: every registered column writer runs in
registration order, emitting one named column each, before the file is
finalized. -/
def WriteAllM (bs : List FieldBinding) (dflt : α)
    (records : List (List α)) : List (String × List α) :=
  bs.map (fun b => (b.name, writeColumn b dflt records))

/-- The column stored under `name` in a written file, as a list of named
columns: the first column with that name, or empty when absent. -/
def storedColumn (cols : List (String × List α)) (name : String) : List α :=
  ((cols.find? (fun p => p.1 = name)).map Prod.snd).getD []

/-- Modelled from the spec: the storage engine (the Rust side of the FFI,
whose sources are not among these headers) preserves written columns and
the row count bit-for-bit (design document, external interfaces), exposing
each stored column of the re-opened table as chunk lists -- one per row
group -- whose concatenation is the stored column, and string columns
verbatim through the allocating fetch. -/
def engineDf (cols : List (String × List α)) (n : Nat)
    (chunking : String → List (List α)) : DataFrameHandle α :=
  ⟨n, chunking, fun name => storedColumn cols name⟩

theorem writeAll_find (bs : List FieldBinding) (dflt : α)
    (records : List (List α)) (hnames : (bs.map FieldBinding.name).Nodup)
    (b : FieldBinding) (hb : b ∈ bs) :
    (WriteAllM bs dflt records).find? (fun p => p.1 = b.name)
      = some (b.name, writeColumn b dflt records) := by
  induction bs with
  | nil => cases hb
  | cons b0 bs ih =>
    simp only [List.map_cons, List.nodup_cons] at hnames
    rcases List.mem_cons.mp hb with rfl | hb
    · unfold WriteAllM
      simp only [List.map_cons]
      rw [List.find?_cons_of_pos _ (by simp)]
    · have hne : b0.name ≠ b.name := by
        intro h
        exact hnames.1 (h ▸ List.mem_map_of_mem _ hb)
      unfold WriteAllM
      simp only [List.map_cons]
      rw [List.find?_cons_of_neg _ (by simp [hne])]
      exact ih hnames.2 hb

/-- C5: buffering N > 0 records (`WriteRecords`) and calling `Finish`
performs exactly one engine write holding those records (every registered
column emitted via `WriteAll`), and reading the resulting table back
through `ReadAllFromDf`/`ReadAllAs` reproduces every registered
numeric/text field of all N records exactly, whatever row-group chunking
the engine re-exposes. -/
theorem write_read_roundtrip (k : Nat) (dflt : α) (bs : List FieldBinding)
    (records : List (List α)) (chunking : String → List (List α))
    (hnames : (bs.map FieldBinding.name).Nodup)
    (hslots : (bs.map FieldBinding.slot).Nodup)
    (hk : ∀ b ∈ bs, b.slot < k)
    (hkind : ∀ b ∈ bs, b.kind ≠ FieldKind.boolean)
    (hlen : ∀ r ∈ records, r.length = k)
    (hne : records ≠ [])
    (hchunk : ∀ b ∈ bs, (chunking b.name).flatten
        = storedColumn (WriteAllM bs dflt records) b.name) :
    (FinishW (WriteRecordsW writerNew records)).2 = some records
    ∧ (ReadAllFromDf k dflt bs
        (engineDf (WriteAllM bs dflt records) records.length
          chunking)).length = records.length
    ∧ ∀ b ∈ bs, ∀ i : Nat,
        ((ReadAllFromDf k dflt bs
            (engineDf (WriteAllM bs dflt records) records.length
              chunking))[i]?).bind (fun r => r[b.slot]?)
          = (records[i]?).bind (fun r => r[b.slot]?) := by
  refine ⟨?_, ?_, ?_⟩
  · simp [FinishW, WriteRecordsW, writerNew, List.isEmpty_iff, hne]
  · unfold ReadAllFromDf
    rw [runReaders_length]
    simp [engineDf]
  · intro b hb i
    have hlength : (ReadAllFromDf k dflt bs
        (engineDf (WriteAllM bs dflt records) records.length
          chunking)).length = records.length := by
      unfold ReadAllFromDf
      rw [runReaders_length]
      simp [engineDf]
    by_cases hi : i < records.length
    · have hstored : storedColumn (WriteAllM bs dflt records) b.name
          = writeColumn b dflt records := by
        rw [storedColumn, writeAll_find bs dflt records hnames b hb]
        rfl
      have hdata : dfDataOf
          (engineDf (WriteAllM bs dflt records) records.length chunking) b
          = some (writeColumn b dflt records) := by
        cases hkd : b.kind with
        | boolean => exact absurd hkd (hkind b hb)
        | prim =>
          simp only [dfDataOf, hkd, engineDf, accIterList_build]
          rw [hchunk b hb, hstored]
        | text =>
          simp only [dfDataOf, hkd, engineDf]
          rw [hstored]
      have hrow : (List.replicate
          (engineDf (WriteAllM bs dflt records) records.length
            chunking).numRows (defaultRecord k dflt))[i]?
          = some (defaultRecord k dflt) := by
        simp [List.getElem?_replicate, engineDf, hi]
      have hbk : b.slot < (defaultRecord k dflt).length := by
        simpa [defaultRecord] using hk b hb
      obtain ⟨r', e1, l1, v1⟩ := runReaders_slot
        (dfDataOf (engineDf (WriteAllM bs dflt records) records.length
          chunking)) bs hslots _ i b.slot _ hrow hbk
      unfold ReadAllFromDf
      rw [e1]
      simp only [Option.some_bind]
      rw [v1, find?_eq_of_mem_nodup bs FieldBinding.slot b hslots hb]
      simp only [hdata]
      have hrec : ∃ rec, records[i]? = some rec := by
        exact ⟨records[i], List.getElem?_eq_getElem hi⟩
      obtain ⟨rec, hrecEq⟩ := hrec
      have hcol : (writeColumn b dflt records)[i]? = some (rec.getD b.slot dflt) := by
        rw [writeColumn, List.getElem?_map, hrecEq]
        rfl
      rw [hcol, hrecEq]
      simp only [Option.some_bind]
      have hreclen : rec.length = k :=
        hlen rec (by rw [List.getElem?_eq_some_iff] at hrecEq
                     obtain ⟨hh, hv⟩ := hrecEq
                     exact hv ▸ List.getElem_mem hh)
      have hslotlt : b.slot < rec.length := by
        rw [hreclen]
        exact hk b hb
      rw [List.getD_eq_getElem _ _ hslotlt, List.getElem?_eq_getElem hslotlt]
    · have h1 : (ReadAllFromDf k dflt bs
          (engineDf (WriteAllM bs dflt records) records.length
            chunking))[i]? = none := by
        rw [List.getElem?_eq_none]
        omega
      have h2 : records[i]? = none := by
        rw [List.getElem?_eq_none]
        omega
      rw [h1, h2]

/-- Witness for the C5 theorem: two records with one numeric and one text
column, the engine re-exposing the numeric column in two row-group
chunks. -/
theorem write_read_roundtrip_witness :
    ((([⟨"id", 0, .prim⟩, ⟨"name", 1, .text⟩] : List FieldBinding).map FieldBinding.name).Nodup
      ∧ (([⟨"id", 0, .prim⟩, ⟨"name", 1, .text⟩] : List FieldBinding).map FieldBinding.slot).Nodup
      ∧ (∀ b ∈ ([⟨"id", 0, .prim⟩, ⟨"name", 1, .text⟩] : List FieldBinding), b.slot < 2)
      ∧ (∀ b ∈ ([⟨"id", 0, .prim⟩, ⟨"name", 1, .text⟩] : List FieldBinding), b.kind ≠ FieldKind.boolean)
      ∧ (∀ r ∈ ([[1, 10], [2, 20]] : List (List Nat)), r.length = 2)
      ∧ ([[1, 10], [2, 20]] : List (List Nat)) ≠ []
      ∧ (∀ b ∈ ([⟨"id", 0, .prim⟩, ⟨"name", 1, .text⟩] : List FieldBinding), ((fun n => if n = "id" then [[1], [2]] else [[10, 20]]) b.name).flatten
          = storedColumn (WriteAllM ([⟨"id", 0, .prim⟩, ⟨"name", 1, .text⟩] : List FieldBinding) 0 ([[1, 10], [2, 20]] : List (List Nat))) b.name))
    ∧ ((FinishW (WriteRecordsW writerNew ([[1, 10], [2, 20]] : List (List Nat)))).2 = some ([[1, 10], [2, 20]] : List (List Nat))
      ∧ (ReadAllFromDf 2 0 ([⟨"id", 0, .prim⟩, ⟨"name", 1, .text⟩] : List FieldBinding)
          (engineDf (WriteAllM ([⟨"id", 0, .prim⟩, ⟨"name", 1, .text⟩] : List FieldBinding) 0 ([[1, 10], [2, 20]] : List (List Nat))) ([[1, 10], [2, 20]] : List (List Nat)).length
            (fun n => if n = "id" then [[1], [2]] else [[10, 20]]))).length = ([[1, 10], [2, 20]] : List (List Nat)).length
      ∧ ∀ b ∈ ([⟨"id", 0, .prim⟩, ⟨"name", 1, .text⟩] : List FieldBinding), ∀ i : Nat,
          ((ReadAllFromDf 2 0 ([⟨"id", 0, .prim⟩, ⟨"name", 1, .text⟩] : List FieldBinding)
              (engineDf (WriteAllM ([⟨"id", 0, .prim⟩, ⟨"name", 1, .text⟩] : List FieldBinding) 0 ([[1, 10], [2, 20]] : List (List Nat))) ([[1, 10], [2, 20]] : List (List Nat)).length
                (fun n => if n = "id" then [[1], [2]] else [[10, 20]])))[i]?).bind (fun r => r[b.slot]?)
            = (([[1, 10], [2, 20]] : List (List Nat))[i]?).bind (fun r => r[b.slot]?)) :=
  ⟨⟨by decide, by decide, by decide, by decide, by decide, by decide,
    by decide⟩,
   write_read_roundtrip 2 0 ([⟨"id", 0, .prim⟩, ⟨"name", 1, .text⟩] : List FieldBinding) ([[1, 10], [2, 20]] : List (List Nat)) (fun n => if n = "id" then [[1], [2]] else [[10, 20]]) (by decide) (by decide)
     (by decide) (by decide) (by decide) (by decide) (by decide)⟩

end BasisRs
